import Mathlib

/-!
Verification of the board/piece engine and game state machine of a minimal
Tetris implementation.

The `Board` class of the source is a JavaScript `Map` from position keys
`"x,y"` to colors.  Since `posKey` is injective on integer coordinates, we
model the map as an association list from `Int × Int` to `Color`, with
JavaScript `Map` semantics: `set` overwrites an existing key in place and
otherwise appends, `get` finds the unique entry, and iteration follows
insertion order.
-/

namespace Tetris

/-- The seven cell colors (`Color` in Board.ts). -/
inductive Color where
  | Red | Green | Blue | Magenta | Cyan | Yellow | Orange
  deriving DecidableEq, Repr

/-- A position `[x, y]` on the grid (`Position` in Board.ts). -/
abbrev Pos := Int × Int

/-- Entry list of a JS `Map` keyed by positions (insertion order). -/
abbrev EntryList := List (Pos × Color)

/-- `map.has(posKey p)`. -/
def mapHas (m : EntryList) (p : Pos) : Bool :=
  m.any (fun e => decide (e.1 = p))

/-- `map.get(posKey p)`. -/
def mapGet (m : EntryList) (p : Pos) : Option Color :=
  (m.find? (fun e => decide (e.1 = p))).map Prod.snd

/-- `map.set(posKey p, c)`: overwrite in place if the key is present,
otherwise append at the end (JS `Map` insertion-order semantics). -/
def mapSet (m : EntryList) (p : Pos) (c : Color) : EntryList :=
  if mapHas m p then m.map (fun e => if e.1 = p then (p, c) else e)
  else m ++ [(p, c)]

/-- The cell transform used by `Board.killLine`: keep rows `> y`, drop
row `y`, move rows `< y` to row index `+ 1`. -/
def killTransform (y : Int) (p : Pos) : Option Pos :=
  if p.2 > y then some p
  else if p.2 = y then none
  else some (p.1, p.2 + 1)

/-- The sparse occupancy grid (`Board` in Board.ts). -/
structure Board where
  cells : EntryList
  deriving DecidableEq, Repr

namespace Board

/-- `new Board()`. -/
def empty : Board := ⟨[]⟩

/-- `new Board(entries)`: the `Map` constructor inserts the entries in
order, later duplicates overwriting earlier ones. -/
def ofEntries (entries : EntryList) : Board :=
  ⟨entries.foldl (fun m e => mapSet m e.1 e.2) []⟩

/-- `Board.get`. -/
def get (b : Board) (p : Pos) : Option Color := mapGet b.cells p

/-- `Board.set`. -/
def set (b : Board) (p : Pos) (c : Color) : Board := ⟨mapSet b.cells p c⟩

/-- `Board.fromPositions`. -/
def fromPositions (ps : List Pos) (c : Color) : Board :=
  ps.foldl (fun acc p => acc.set p c) empty

/-- `Board.modified`: apply a position transform to every entry and
rebuild the map. -/
def modified (b : Board) (t : Pos → Pos) : Board :=
  ofEntries (b.cells.map (fun e => (t e.1, e.2)))

/-- `Board.modifiedFilter`: like `modified` but a `none` result drops the
cell; the new board is built by `set` in iteration order. -/
def modifiedFilter (b : Board) (t : Pos → Option Pos) : Board :=
  ⟨b.cells.foldl (fun m e =>
      match t e.1 with
      | some p => mapSet m p e.2
      | none => m) []⟩

/-- `Board.transposed`. -/
def transposed (b : Board) : Board := b.modified (fun p => (p.2, p.1))

/-- `Board.mirroredY`. -/
def mirroredY (b : Board) : Board := b.modified (fun p => (p.1, -p.2))

/-- `Board.rotated`: 90° clockwise = mirror in y, then transpose. -/
def rotated (b : Board) : Board := b.mirroredY.transposed

/-- `Board.rotatedCounter`: three clockwise rotations. -/
def rotatedCounter (b : Board) : Board := b.rotated.rotated.rotated

/-- `Board.negativeShift`: componentwise minimum over all occupied cells,
starting from `(0, 0)`. -/
def negativeShift (b : Board) : Pos :=
  b.cells.foldl (fun acc e => (min acc.1 e.1.1, min acc.2 e.1.2)) (0, 0)

/-- `Board.shifted`. -/
def shifted (b : Board) (s : Pos) : Board :=
  b.modified (fun p => (p.1 + s.1, p.2 + s.2))

/-- Loop body of `Board.merged`: walk the other board's entries, failing
on the first key already present, otherwise inserting it. -/
def mergedAux (m : EntryList) : EntryList → Option EntryList
  | [] => some m
  | e :: rest => if mapHas m e.1 then none else mergedAux (m ++ [e]) rest

/-- `Board.merged`: `none` is the collision outcome. -/
def merged (b other : Board) : Option Board :=
  (mergedAux b.cells other.cells).map Board.mk

/-- `Board.contained`. -/
def contained (b : Board) (boardX boardY : Nat) : Bool :=
  b.cells.all (fun e =>
    decide (0 ≤ e.1.1) && decide (e.1.1 < (boardX : Int)) &&
    decide (0 ≤ e.1.2) && decide (e.1.2 < (boardY : Int)))

/-- `Board.wholeLines`: candidate rows `0 .. boardY-1` in order, keeping
those whose every column `0 .. boardX-1` is occupied. -/
def wholeLines (b : Board) (boardX boardY : Nat) : List Int :=
  (((List.range boardY).map (fun (y : Nat) => (y : Int))).filter
    (fun y => (List.range boardX).all (fun x => mapHas b.cells ((x : Int), y))))

/-- `Board.killLine`. -/
def killLine (b : Board) (y : Int) : Board :=
  b.modifiedFilter (killTransform y)

/-- Class invariant of the JS `Map` backing a `Board`: keys are unique. -/
def wf (b : Board) : Prop := (b.cells.map Prod.fst).Nodup

instance (b : Board) : Decidable b.wf := by
  unfold wf; infer_instance

end Board

/-! ## Game configuration and state machine (Utils.ts / GameLogic.ts) -/

/-- Board dimensions and rendering configuration (`Metrics`). -/
structure Metrics where
  blockPixels : Nat
  boardX : Nat
  boardY : Nat
  deriving DecidableEq, Repr

/-- The default metrics: an 8 × 20 playfield. -/
def metrics : Metrics := ⟨20, 8, 20⟩

/-- The seven tetromino pieces (`possiblePieces` in Utils.ts). -/
def possiblePieces : List Board :=
  [ Board.fromPositions [(0, 0), (0, 1), (1, 0), (1, 1)] .Red,
    Board.fromPositions [(0, 0), (1, 0), (1, 1), (2, 0)] .Green,
    Board.fromPositions [(0, 0), (1, 0), (2, 0), (3, 0)] .Blue,
    Board.fromPositions [(0, 0), (1, 0), (2, 0), (0, 1)] .Orange,
    Board.fromPositions [(0, 0), (1, 0), (2, 0), (2, 1)] .Yellow,
    Board.fromPositions [(0, 0), (1, 0), (1, 1), (2, 1)] .Cyan,
    Board.fromPositions [(1, 0), (2, 0), (0, 1), (1, 1)] .Magenta ]

/-- `possiblePieces[idx]` for the randomly drawn index. -/
def pieceFor (idx : Fin 7) : Board := possiblePieces.getD idx.val Board.empty

/-- The tagged union of game states (`GameState`), with timestamps as
integer milliseconds. -/
inductive GameState where
  | Falling (board falling : Board) (shift : Pos) (timeSinceFall : Int)
  | Flashing (board : Board) (stage : Int) (lastStageSwitch : Int) (lines : List Int)
  | GameOver (board : Board)
  deriving DecidableEq, Repr

/-- The board carried by any game state. -/
def stateBoard : GameState → Board
  | .Falling board _ _ _ => board
  | .Flashing board _ _ _ => board
  | .GameOver board => board

/-- Whether a state is in the Flashing variant. -/
def isFlashing : GameState → Bool
  | .Flashing _ _ _ _ => true
  | _ => false

/-- The keys the keydown handler recognizes. -/
inductive Key where
  | arrowLeft | arrowRight | arrowDown | arrowUp | space | enter | other
  deriving DecidableEq, Repr

/-- `moveDirections[event.key]`. -/
def moveOf : Key → Option Pos
  | .arrowRight => some (1, 0)
  | .arrowLeft => some (-1, 0)
  | .arrowDown => some (0, 1)
  | _ => none

/-- The placement check used everywhere by the state machine: the piece
at the given shift merges cleanly with the locked board and stays within
the bounds. -/
def validPlace (boardX boardY : Nat) (board falling : Board) (sh : Pos) : Bool :=
  (board.merged (falling.shifted sh)).isSome &&
    (falling.shifted sh).contained boardX boardY

/-- The wall-kick loop shared by rotation handling and the spawn
procedure: try the kick offsets in order, returning the first shift at
which the adjusted piece places validly. -/
def tryKicks (boardX boardY : Nat) (board adjusted : Board) (shift : Pos) :
    List Pos → Option Pos
  | [] => none
  | d :: ds =>
    let testShift : Pos := (shift.1 + d.1, shift.2 + d.2)
    if validPlace boardX boardY board adjusted testShift then some testShift
    else tryKicks boardX boardY board adjusted shift ds

/-- One iteration of the random-rotation loop in `createNewFalling`:
rotate counter-clockwise, re-normalize, and accept the first kick that
places validly, otherwise keep the piece and shift unchanged. -/
def spawnRotate (boardX boardY : Nat) (board : Board) (fs : Board × Pos) :
    Board × Pos :=
  let rotated := fs.1.rotatedCounter
  let ns := rotated.negativeShift
  let adjusted := rotated.shifted (-ns.1, -ns.2)
  match tryKicks boardX boardY board adjusted fs.2 [(0, 0), (-1, 0)] with
  | some ts => (adjusted, ts)
  | none => fs

/-- The `for (let i = 0; i < rotations; i++)` loop of `createNewFalling`. -/
def spawnLoop (boardX boardY : Nat) (board : Board) :
    Nat → Board × Pos → Board × Pos
  | 0, fs => fs
  | n + 1, fs => spawnLoop boardX boardY board n (spawnRotate boardX boardY board fs)

/-- `createNewFalling`: the random piece index and rotation count are
passed explicitly, as is the spawn timestamp. -/
def createNewFalling (board : Board) (m : Metrics) (idx : Fin 7) (rots : Fin 4)
    (now : Int) : GameState :=
  let falling := pieceFor idx
  let shift : Pos := (0, 0)
  let initialShifted := falling.shifted shift
  if !(board.merged initialShifted).isSome ||
      !(initialShifted.contained m.boardX m.boardY) then
    .GameOver board
  else
    let fs := spawnLoop m.boardX m.boardY board rots.val (falling, shift)
    .Falling board fs.1 fs.2 now

/-- `attemptRotation`: rotate the local piece in the requested direction,
re-normalize via `negativeShift`/`shifted`, and accept the first of the
kicks `(0,0)`, `(-1,0)` that places validly; otherwise return the prior
state unchanged. -/
def attemptRotation (m : Metrics) (board falling : Board) (shift : Pos)
    (timeSinceFall : Int) (clockwise : Bool) : GameState :=
  let rotated := if clockwise then falling.rotated else falling.rotatedCounter
  let ns := rotated.negativeShift
  let adjusted := rotated.shifted (-ns.1, -ns.2)
  match tryKicks m.boardX m.boardY board adjusted shift [(0, 0), (-1, 0)] with
  | some ts => .Falling board adjusted ts timeSinceFall
  | none => .Falling board falling shift timeSinceFall

/-- The keydown reducer of `useGameLogic`.  The random draws consumed by
a possible spawn and the current timestamp are passed explicitly. -/
def handleKey (m : Metrics) (key : Key) (now : Int) (idx : Fin 7) (rots : Fin 4) :
    GameState → GameState
  | .Falling board falling shift timeSinceFall =>
    match moveOf key with
    | some mv =>
      let newShift : Pos := (shift.1 + mv.1, shift.2 + mv.2)
      if validPlace m.boardX m.boardY board falling newShift then
        .Falling board falling newShift timeSinceFall
      else if mv.2 = 1 then
        match board.merged (falling.shifted shift) with
        | some mergedBoard =>
          let lines := mergedBoard.wholeLines m.boardX m.boardY
          if lines.isEmpty then createNewFalling mergedBoard m idx rots now
          else .Flashing mergedBoard 0 now lines
        | none => .Falling board falling shift timeSinceFall
      else .Falling board falling shift timeSinceFall
    | none =>
      if key = .arrowUp then
        attemptRotation m board falling shift timeSinceFall false
      else if key = .space then
        attemptRotation m board falling shift timeSinceFall true
      else .Falling board falling shift timeSinceFall
  | .GameOver board =>
    if key = .enter then createNewFalling Board.empty m idx rots now
    else .GameOver board
  | s => s

/-- `killLine` applied to every recorded line, in list order. -/
def killLines (board : Board) (lines : List Int) : Board :=
  lines.foldl (fun b l => b.killLine l) board

/-- One step of the `requestAnimationFrame` game loop, paired with the
flash accumulator (`flashAccumulatorRef`).  Timing constants: fall
interval 700 ms, flash stage 50 ms, 18 stages. -/
def gameTick (m : Metrics) (currentTime deltaTime acc : Int) (idx : Fin 7)
    (rots : Fin 4) : GameState → GameState × Int
  | .Falling board falling shift timeSinceFall =>
    if currentTime - timeSinceFall ≥ 700 then
      let newShift : Pos := (shift.1, shift.2 + 1)
      if validPlace m.boardX m.boardY board falling newShift then
        (.Falling board falling newShift currentTime, acc)
      else
        match board.merged (falling.shifted shift) with
        | some mergedBoard =>
          let lines := mergedBoard.wholeLines m.boardX m.boardY
          if lines.isEmpty then
            (createNewFalling mergedBoard m idx rots currentTime, acc)
          else (.Flashing mergedBoard 0 currentTime lines, 0)
        | none => (.GameOver board, acc)
    else (.Falling board falling shift timeSinceFall, acc)
  | .Flashing board stage lastStageSwitch lines =>
    let acc2 := acc + deltaTime
    if acc2 ≥ 50 then
      let acc3 := Int.tmod acc2 50
      let stage2 := stage + 1
      if stage2 < 18 then (.Flashing board stage2 currentTime lines, acc3)
      else (createNewFalling (killLines board lines) m idx rots currentTime, acc3)
    else (.Flashing board stage lastStageSwitch lines, acc2)
  | .GameOver board => (.GameOver board, acc)

/-- The Falling-state invariant: the falling piece at its current shift
merges cleanly with the locked board and is contained in the bounds.
Non-Falling states satisfy it vacuously. -/
def fallingOK (m : Metrics) : GameState → Bool
  | .Falling board falling shift _ => validPlace m.boardX m.boardY board falling shift
  | _ => true

/-- Explicit inverse of `killTransform` on its image: a result row `> y`
came from itself, a result row `≤ y` came from the row above it. -/
def killInv (y : Int) (q : Pos) : Pos :=
  if y < q.2 then q else (q.1, q.2 - 1)

/-- The spawn pre-check of `createNewFalling`: the initially selected
piece placed at shift `(0, 0)` merges with the locked board and is
contained in the bounds. -/
def spawnOK (board : Board) (m : Metrics) (idx : Fin 7) : Bool :=
  validPlace m.boardX m.boardY board (pieceFor idx) (0, 0)

/-- The specification's description of a rotation input in the Falling
state, written from the spec's words: rotate the local piece, re-normalize
via `negativeShift`/`shifted`, try placement at the current shift and then
at shift − (1, 0) in that order, accept the first candidate that both
merges and stays in bounds, and otherwise return the prior state entirely
unchanged. -/
def rotationSpec (m : Metrics) (board falling : Board) (shift : Pos)
    (timeSinceFall : Int) (clockwise : Bool) : GameState :=
  let rotated := if clockwise then falling.rotated else falling.rotatedCounter
  let ns := rotated.negativeShift
  let adjusted := rotated.shifted (-ns.1, -ns.2)
  let ok : Pos → Bool := fun sh => validPlace m.boardX m.boardY board adjusted sh
  if ok shift then .Falling board adjusted shift timeSinceFall
  else if ok (shift.1 - 1, shift.2) then
    .Falling board adjusted (shift.1 - 1, shift.2) timeSinceFall
  else .Falling board falling shift timeSinceFall

/-- The 1-column 3-row board of the spec's `killLine` scenario:
`(0,0) = Red`, `(0,1) = Green`, `(0,2) = Blue`. -/
def scenarioBoard : Board :=
  Board.ofEntries [((0, 0), .Red), ((0, 1), .Green), ((0, 2), .Blue)]

/-- A 4 × 3 grid with row 1 fully occupied by four distinct colors and
rows 0 and 2 only partially filled. -/
def exGrid : Board :=
  Board.ofEntries [((0, 1), .Red), ((1, 1), .Green), ((2, 1), .Blue),
    ((3, 1), .Yellow), ((0, 0), .Cyan), ((2, 2), .Magenta)]

/-- A 1 × 2 playfield used to probe the flash-exit transition. -/
def smallMetrics : Metrics := ⟨20, 1, 2⟩

/-- A 1 × 2 board whose row 1 is full and whose row 0 is occupied. -/
def flashBoard : Board := Board.ofEntries [((0, 0), .Red), ((0, 1), .Green)]

/-- A plainly valid Falling state on the default playfield. -/
def probeState : GameState := .Falling Board.empty (pieceFor 0) (0, 0) 0

/-! ## Lemmas about the map primitives -/

theorem mapHas_iff {m : EntryList} {p : Pos} :
    mapHas m p = true ↔ ∃ e ∈ m, e.1 = p := by
  simp [mapHas, List.any_eq_true]

theorem mapHas_cons {e : Pos × Color} {m : EntryList} {p : Pos} :
    mapHas (e :: m) p = (decide (e.1 = p) || mapHas m p) := by
  simp [mapHas]

theorem mapHas_append {m₁ m₂ : EntryList} {p : Pos} :
    mapHas (m₁ ++ m₂) p = (mapHas m₁ p || mapHas m₂ p) := by
  simp [mapHas, List.any_append]

theorem mapGet_cons {e : Pos × Color} {m : EntryList} {p : Pos} :
    mapGet (e :: m) p = if e.1 = p then some e.2 else mapGet m p := by
  by_cases h : e.1 = p
  · simp [mapGet, List.find?_cons_of_pos, h]
  · simp [mapGet, List.find?_cons_of_neg, h]

theorem mapGet_eq_none_of_not_has {m : EntryList} {p : Pos}
    (h : mapHas m p = false) : mapGet m p = none := by
  induction m with
  | nil => rfl
  | cons e m ih =>
    rw [mapHas_cons, Bool.or_eq_false_iff] at h
    rw [mapGet_cons, if_neg (by simpa using h.1)]
    exact ih h.2

theorem mapGet_isSome_of_has {m : EntryList} {p : Pos}
    (h : mapHas m p = true) : (mapGet m p).isSome = true := by
  induction m with
  | nil => simp [mapHas] at h
  | cons e m ih =>
    rw [mapGet_cons]
    rw [mapHas_cons, Bool.or_eq_true] at h
    by_cases he : e.1 = p
    · simp [he]
    · simp only [if_neg he]
      exact ih (h.resolve_left (by simpa using he))

theorem mapHas_eq_isSome_mapGet {m : EntryList} {p : Pos} :
    mapHas m p = (mapGet m p).isSome := by
  cases h : mapHas m p
  · rw [mapGet_eq_none_of_not_has h]; rfl
  · rw [mapGet_isSome_of_has h]

theorem mapGet_append {m₁ m₂ : EntryList} {p : Pos} :
    mapGet (m₁ ++ m₂) p = if mapHas m₁ p then mapGet m₁ p else mapGet m₂ p := by
  induction m₁ with
  | nil => simp [mapHas]
  | cons e m₁ ih =>
    rw [List.cons_append, mapGet_cons, mapGet_cons, mapHas_cons]
    by_cases he : e.1 = p
    · simp [he]
    · simp [if_neg he, ih, he]

theorem mapSet_of_not_has {m : EntryList} {p : Pos} {c : Color}
    (h : mapHas m p = false) : mapSet m p c = m ++ [(p, c)] := by
  rw [mapSet, if_neg (by simp [h])]

/-- The `Map` constructor fold is the identity on an entry list whose keys
are already unique. -/
theorem foldl_mapSet_eq_append :
    ∀ (l m : EntryList), ((m ++ l).map Prod.fst).Nodup →
      l.foldl (fun acc e => mapSet acc e.1 e.2) m = m ++ l
  | [], m, _ => by simp
  | e :: l, m, h => by
    have hkeys : ((m ++ e :: l).map Prod.fst).Nodup := h
    rw [List.map_append, List.nodup_append] at hkeys
    have hnotin : e.1 ∉ m.map Prod.fst := by
      intro hmem
      exact hkeys.2.2 hmem (by simp)
    have hhas : mapHas m e.1 = false := by
      rw [Bool.eq_false_iff]
      intro hc
      rcases mapHas_iff.mp hc with ⟨e', he', hee⟩
      exact hnotin (hee ▸ List.mem_map_of_mem Prod.fst he')
    rw [List.foldl_cons, mapSet_of_not_has hhas]
    have hassoc : m ++ [(e.1, e.2)] ++ l = m ++ e :: l := by simp
    have := foldl_mapSet_eq_append l (m ++ [(e.1, e.2)]) (by rw [hassoc]; exact h)
    rw [this, hassoc]

theorem Board.ofEntries_cells {l : EntryList} (h : (l.map Prod.fst).Nodup) :
    (Board.ofEntries l).cells = l := by
  have := foldl_mapSet_eq_append l [] (by simpa using h)
  simpa [Board.ofEntries] using this

/-- `modified` with an injective transform on a well-formed board simply
maps the transform over the entry list. -/
theorem Board.modified_cells {b : Board} {t : Pos → Pos} (hb : b.wf)
    (ht : Function.Injective t) :
    (b.modified t).cells = b.cells.map (fun e => (t e.1, e.2)) := by
  apply Board.ofEntries_cells
  have : (b.cells.map (fun e => (t e.1, e.2))).map Prod.fst
      = (b.cells.map Prod.fst).map t := by
    simp [List.map_map, Function.comp_def]
  rw [this]
  exact hb.map ht

theorem Board.modified_wf {b : Board} {t : Pos → Pos} (hb : b.wf)
    (ht : Function.Injective t) : (b.modified t).wf := by
  rw [Board.wf, Board.modified_cells hb ht]
  have : (b.cells.map (fun e => (t e.1, e.2))).map Prod.fst
      = (b.cells.map Prod.fst).map t := by
    simp [List.map_map, Function.comp_def]
  rw [this]
  exact hb.map ht

/-! ## Lemmas about `modifiedFilter` and `killLine` -/

/-- The `modifiedFilter` fold is a plain `filterMap` whenever the produced
keys are unique. -/
theorem foldl_modifiedFilter_eq {t : Pos → Option Pos} :
    ∀ (l m : EntryList),
      ((m.map Prod.fst ++ l.filterMap (fun e => t e.1)).Nodup) →
      l.foldl (fun acc e =>
          match t e.1 with
          | some p => mapSet acc p e.2
          | none => acc) m
        = m ++ l.filterMap (fun e => (t e.1).map (fun p => (p, e.2)))
  | [], m, _ => by simp
  | e :: l, m, h => by
    rw [List.foldl_cons]
    cases ht : t e.1 with
    | none =>
      have hfm1 : (e :: l).filterMap (fun e => t e.1)
          = l.filterMap (fun e => t e.1) := by
        simp [List.filterMap_cons, ht]
      have hfm2 : (e :: l).filterMap (fun e => (t e.1).map (fun p => (p, e.2)))
          = l.filterMap (fun e => (t e.1).map (fun p => (p, e.2))) := by
        simp [List.filterMap_cons, ht]
      rw [hfm1] at h
      rw [hfm2]
      exact foldl_modifiedFilter_eq l m h
    | some p =>
      have hfm1 : (e :: l).filterMap (fun e => t e.1)
          = p :: l.filterMap (fun e => t e.1) := by
        simp [List.filterMap_cons, ht]
      have hfm2 : (e :: l).filterMap (fun e => (t e.1).map (fun p => (p, e.2)))
          = (p, e.2) :: l.filterMap (fun e => (t e.1).map (fun p => (p, e.2))) := by
        simp [List.filterMap_cons, ht]
      rw [hfm1] at h
      have hnotin : p ∉ m.map Prod.fst := by
        rw [show m.map Prod.fst ++ p :: l.filterMap (fun e => t e.1)
              = (m.map Prod.fst ++ [p]) ++ l.filterMap (fun e => t e.1) by simp,
            List.nodup_append] at h
        intro hmem
        have h1 := h.1
        rw [List.nodup_append] at h1
        exact h1.2.2 hmem (by simp)
      have hhas : mapHas m p = false := by
        rw [Bool.eq_false_iff]
        intro hc
        rcases mapHas_iff.mp hc with ⟨e', he', hee⟩
        exact hnotin (hee ▸ List.mem_map_of_mem Prod.fst he')
      have harr : (m ++ [(p, e.2)]).map Prod.fst ++ l.filterMap (fun e => t e.1)
          = m.map Prod.fst ++ p :: l.filterMap (fun e => t e.1) := by simp
      have hrec := foldl_modifiedFilter_eq l (m ++ [(p, e.2)]) (by
        rw [show m.map Prod.fst ++ p :: l.filterMap (fun e => t e.1)
              = (m.map Prod.fst ++ [p]) ++ l.filterMap (fun e => t e.1) by simp] at h
        rw [harr]
        simpa using h)
      have hgoal : l.foldl (fun acc e =>
            match t e.1 with
            | some p => mapSet acc p e.2
            | none => acc) (mapSet m p e.2)
          = m ++ (p, e.2) :: l.filterMap (fun e => (t e.1).map (fun p => (p, e.2))) := by
        rw [mapSet_of_not_has hhas, hrec]
        simp
      rw [hfm2]
      exact hgoal

/-- The `killTransform` is injective where defined. -/
theorem killTransform_partialInj {y : Int} :
    ∀ p p' q : Pos, q ∈ killTransform y p → q ∈ killTransform y p' → p = p' := by
  intro p p' q hp hp'
  rcases p with ⟨px, py⟩
  rcases p' with ⟨px', py'⟩
  rcases q with ⟨qx, qz⟩
  simp only [killTransform, Option.mem_def] at hp hp'
  split_ifs at hp hp' <;>
    simp only [Option.some.injEq, Prod.mk.injEq] at hp hp' <;>
    · obtain ⟨hx, hy⟩ := hp
      obtain ⟨hx', hy'⟩ := hp'
      simp only [Prod.mk.injEq]
      omega

theorem Board.killLine_cells {b : Board} {y : Int} (hb : b.wf) :
    (b.killLine y).cells
      = b.cells.filterMap (fun e => (killTransform y e.1).map (fun p => (p, e.2))) := by
  have hkeys : (b.cells.filterMap (fun e => killTransform y e.1)).Nodup := by
    have hmm : b.cells.filterMap (fun e => killTransform y e.1)
        = (b.cells.map Prod.fst).filterMap (killTransform y) := by
      rw [List.filterMap_map]; rfl
    rw [hmm]
    exact hb.filterMap (fun a a' q hq hq' => killTransform_partialInj a a' q hq hq')
  have := foldl_modifiedFilter_eq (t := killTransform y) b.cells [] (by simpa using hkeys)
  simpa [Board.killLine, Board.modifiedFilter] using this

/-- Generic lookup through a `filterMap` whose transform has an explicit
inverse. -/
theorem mapGet_filterMap_of_inv {t : Pos → Option Pos} {inv : Pos → Pos}
    (hinv : ∀ p q, t p = some q ↔ p = inv q) :
    ∀ (l : EntryList) (q : Pos),
      mapGet (l.filterMap (fun e => (t e.1).map (fun p => (p, e.2)))) q
        = mapGet l (inv q)
  | [], _ => rfl
  | e :: l, q => by
    cases ht : t e.1 with
    | none =>
      have hfm : (e :: l).filterMap (fun e => (t e.1).map (fun p => (p, e.2)))
          = l.filterMap (fun e => (t e.1).map (fun p => (p, e.2))) := by
        simp [List.filterMap_cons, ht]
      rw [hfm, mapGet_cons]
      have hne : e.1 ≠ inv q := by
        intro hc
        rw [← hinv e.1 q] at hc
        simp [hc] at ht
      rw [if_neg hne]
      exact mapGet_filterMap_of_inv hinv l q
    | some p =>
      have hfm : (e :: l).filterMap (fun e => (t e.1).map (fun p => (p, e.2)))
          = (p, e.2) :: l.filterMap (fun e => (t e.1).map (fun p => (p, e.2))) := by
        simp [List.filterMap_cons, ht]
      rw [hfm, mapGet_cons, mapGet_cons]
      by_cases hpq : p = q
      · subst hpq
        rw [if_pos rfl, if_pos ((hinv e.1 p).mp ht)]
      · have hne : e.1 ≠ inv q := by
          intro hc
          have hq := (hinv e.1 q).mpr hc
          rw [ht] at hq
          exact hpq (by injection hq)
        rw [if_neg hpq, if_neg hne]
        exact mapGet_filterMap_of_inv hinv l q

theorem killTransform_inv_iff {y : Int} (p q : Pos) :
    killTransform y p = some q ↔ p = killInv y q := by
  rcases p with ⟨px, py⟩
  rcases q with ⟨qx, qz⟩
  simp only [killTransform, killInv]
  constructor
  · intro h
    split_ifs at h with h1 h2 <;>
      simp only [Option.some.injEq, Prod.mk.injEq] at h
    · obtain ⟨hx, hy⟩ := h
      rw [if_pos (show y < qz by omega)]
      simp only [Prod.mk.injEq]
      omega
    · obtain ⟨hx, hy⟩ := h
      rw [if_neg (show ¬ y < qz by omega)]
      simp only [Prod.mk.injEq]
      omega
  · intro h
    split_ifs at h with h1 <;> simp only [Prod.mk.injEq] at h <;>
      obtain ⟨hx, hy⟩ := h
    · rw [if_pos (show py > y by omega)]
      simp only [Option.some.injEq, Prod.mk.injEq]
      omega
    · rw [if_neg (show ¬ py > y by omega), if_neg (show ¬ py = y by omega)]
      simp only [Option.some.injEq, Prod.mk.injEq]
      omega

/-- Lookup characterization of `killLine` on a well-formed board. -/
theorem Board.killLine_get {b : Board} {y : Int} (hb : b.wf) (x z : Int) :
    (b.killLine y).get (x, z)
      = if y < z then b.get (x, z) else b.get (x, z - 1) := by
  rw [Board.get, Board.killLine_cells hb,
    mapGet_filterMap_of_inv killTransform_inv_iff b.cells (x, z)]
  rw [killInv]
  split_ifs <;> rfl

theorem Board.killLine_wf {b : Board} {y : Int} (hb : b.wf) :
    (b.killLine y).wf := by
  rw [Board.wf, Board.killLine_cells hb]
  have hmm : (b.cells.filterMap
        (fun e => (killTransform y e.1).map (fun p => (p, e.2)))).map Prod.fst
      = (b.cells.map Prod.fst).filterMap (killTransform y) := by
    induction b.cells with
    | nil => rfl
    | cons e l ih =>
      cases ht : killTransform y e.1 with
      | none => simp [List.filterMap_cons, ht, ih]
      | some p => simp [List.filterMap_cons, ht, ih]
  rw [hmm]
  exact hb.filterMap (fun a a' q hq hq' => killTransform_partialInj a a' q hq hq')

/-- The kill transform drops exactly the cells of row `y`. -/
theorem length_filterMap_killTransform (y : Int) :
    ∀ l : EntryList,
      (l.filterMap (fun e => (killTransform y e.1).map (fun p => (p, e.2)))).length
        + (l.filter (fun e => decide (e.1.2 = y))).length
        = l.length
  | [] => rfl
  | e :: l => by
    have ih := length_filterMap_killTransform y l
    by_cases hy : e.1.2 = y
    · have ht : killTransform y e.1 = none := by
        rw [killTransform, if_neg (by omega), if_pos hy]
      have h1 : (e :: l).filterMap (fun e => (killTransform y e.1).map (fun p => (p, e.2)))
          = l.filterMap (fun e => (killTransform y e.1).map (fun p => (p, e.2))) := by
        simp [List.filterMap_cons, ht]
      have h2 : (e :: l).filter (fun e => decide (e.1.2 = y))
          = e :: l.filter (fun e => decide (e.1.2 = y)) := by
        simp [List.filter_cons, hy]
      rw [h1, h2, List.length_cons, List.length_cons]
      omega
    · have ht : ∃ p, killTransform y e.1 = some p := by
        rw [killTransform]
        by_cases hgt : e.1.2 > y
        · rw [if_pos hgt]
          exact ⟨e.1, rfl⟩
        · rw [if_neg hgt, if_neg hy]
          exact ⟨(e.1.1, e.1.2 + 1), rfl⟩
      rcases ht with ⟨p, hp⟩
      have h1 : (e :: l).filterMap (fun e => (killTransform y e.1).map (fun p => (p, e.2)))
          = (p, e.2) :: l.filterMap (fun e => (killTransform y e.1).map (fun p => (p, e.2))) := by
        simp [List.filterMap_cons, hp]
      have h2 : (e :: l).filter (fun e => decide (e.1.2 = y))
          = l.filter (fun e => decide (e.1.2 = y)) := by
        simp [List.filter_cons, hy]
      rw [h1, h2, List.length_cons, List.length_cons]
      omega

/-- Cell-count equation for `killLine` on a well-formed board. -/
theorem Board.killLine_length {b : Board} {y : Int} (hb : b.wf) :
    (b.killLine y).cells.length
        + (b.cells.filter (fun e => decide (e.1.2 = y))).length
      = b.cells.length := by
  rw [Board.killLine_cells hb]
  exact length_filterMap_killTransform y b.cells

/-! ## Lemmas about the rotation transforms -/

theorem Board.eq_of_cells {a b : Board} (h : a.cells = b.cells) : a = b := by
  cases a
  cases b
  simpa using h

theorem mirror_inj : Function.Injective (fun p : Pos => ((p.1, -p.2) : Pos)) := by
  intro p q h
  rcases p with ⟨a, b⟩
  rcases q with ⟨c, d⟩
  simp only [Prod.mk.injEq] at h ⊢
  omega

theorem transpose_inj : Function.Injective (fun p : Pos => ((p.2, p.1) : Pos)) := by
  intro p q h
  rcases p with ⟨a, b⟩
  rcases q with ⟨c, d⟩
  simp only [Prod.mk.injEq] at h ⊢
  omega

/-- On a well-formed board, one clockwise rotation maps every cell
`(x, y)` to `(-y, x)`. -/
theorem Board.rotated_cells {b : Board} (hb : b.wf) :
    b.rotated.cells = b.cells.map (fun e => ((-e.1.2, e.1.1), e.2)) := by
  rw [Board.rotated, Board.mirroredY, Board.transposed,
    Board.modified_cells (Board.modified_wf hb mirror_inj) transpose_inj,
    Board.modified_cells hb mirror_inj]
  simp [List.map_map, Function.comp_def]

theorem Board.rotated_wf {b : Board} (hb : b.wf) : b.rotated.wf :=
  Board.modified_wf (Board.modified_wf hb mirror_inj) transpose_inj

/-! ## Lemmas about `merged` -/

theorem mergedAux_eq_none_iff :
    ∀ (l : EntryList), (l.map Prod.fst).Nodup →
      ∀ m, (Board.mergedAux m l = none ↔ ∃ e ∈ l, mapHas m e.1 = true)
  | [], _, m => by simp [Board.mergedAux]
  | e :: l, hl, m => by
    rw [List.map_cons, List.nodup_cons] at hl
    by_cases h : mapHas m e.1 = true
    · rw [Board.mergedAux, if_pos h]
      exact iff_of_true rfl ⟨e, by simp, h⟩
    · rw [Board.mergedAux, if_neg h]
      have ih := mergedAux_eq_none_iff l hl.2 (m ++ [e])
      rw [ih]
      constructor
      · rintro ⟨e', he', hhas⟩
        rw [mapHas_append] at hhas
        have hne : mapHas [e] e'.1 = false := by
          rw [Bool.eq_false_iff]
          intro hc
          rcases mapHas_iff.mp hc with ⟨e'', he'', heq⟩
          rcases List.mem_singleton.mp he'' with rfl
          exact hl.1 (heq ▸ List.mem_map_of_mem Prod.fst he')
        rw [hne, Bool.or_false] at hhas
        exact ⟨e', List.mem_cons_of_mem e he', hhas⟩
      · rintro ⟨e', he', hhas⟩
        rcases List.mem_cons.mp he' with rfl | hmem
        · exact absurd hhas h
        · refine ⟨e', hmem, ?_⟩
          rw [mapHas_append, hhas, Bool.true_or]

theorem mergedAux_eq_some :
    ∀ (l m r : EntryList), Board.mergedAux m l = some r → r = m ++ l
  | [], m, r, h => by
    rw [Board.mergedAux] at h
    injection h with hh
    simp [← hh]
  | e :: l, m, r, h => by
    rw [Board.mergedAux] at h
    by_cases hc : mapHas m e.1 = true
    · rw [if_pos hc] at h
      exact absurd h (by simp)
    · rw [if_neg hc] at h
      have := mergedAux_eq_some l (m ++ [e]) r h
      simpa using this

theorem mergedAux_disjoint :
    ∀ (l m r : EntryList), Board.mergedAux m l = some r →
      ∀ e ∈ l, mapHas m e.1 = false
  | [], _, _, _ => by simp
  | e :: l, m, r, h => by
    rw [Board.mergedAux] at h
    by_cases hc : mapHas m e.1 = true
    · rw [if_pos hc] at h
      exact absurd h (by simp)
    · rw [if_neg hc] at h
      intro e' he'
      rcases List.mem_cons.mp he' with rfl | hmem
      · exact Bool.eq_false_iff.mpr hc
      · have := mergedAux_disjoint l (m ++ [e]) r h e' hmem
        rw [mapHas_append] at this
        exact (Bool.or_eq_false_iff.mp this).1

/-- `merged` signals a collision exactly when some position is occupied
in both boards (the other board must be well-formed, as every JS `Map`
is). -/
theorem merged_isNone_iff {A B : Board} (hB : B.wf) :
    (A.merged B).isNone = true ↔
      ∃ p, mapHas A.cells p = true ∧ mapHas B.cells p = true := by
  have hnone := mergedAux_eq_none_iff B.cells hB A.cells
  constructor
  · intro h
    have haux : Board.mergedAux A.cells B.cells = none := by
      rcases hres : Board.mergedAux A.cells B.cells with _ | r
      · rfl
      · rw [Board.merged, hres] at h
        simp at h
    rcases hnone.mp haux with ⟨e, he, hhas⟩
    exact ⟨e.1, hhas, mapHas_iff.mpr ⟨e, he, rfl⟩⟩
  · rintro ⟨p, hpA, hpB⟩
    rcases mapHas_iff.mp hpB with ⟨e, he, rfl⟩
    have haux : Board.mergedAux A.cells B.cells = none := hnone.mpr ⟨e, he, hpA⟩
    rw [Board.merged, haux]
    rfl

/-- A successful `merged` concatenates the entry lists. -/
theorem merged_eq_some_cells {A B C : Board} (h : A.merged B = some C) :
    C.cells = A.cells ++ B.cells := by
  rw [Board.merged] at h
  rcases hres : Board.mergedAux A.cells B.cells with _ | r
  · rw [hres] at h
    exact absurd h (by simp)
  · rw [hres] at h
    have hr := mergedAux_eq_some B.cells A.cells r hres
    simp only [Option.map_some'] at h
    injection h with hC
    rw [← hC, hr]

theorem merged_eq_some_disjoint {A B C : Board} (h : A.merged B = some C) :
    ∀ e ∈ B.cells, mapHas A.cells e.1 = false := by
  rw [Board.merged] at h
  rcases hres : Board.mergedAux A.cells B.cells with _ | r
  · rw [hres] at h
    exact absurd h (by simp)
  · exact mergedAux_disjoint B.cells A.cells r hres

/-! ## Lemmas about `wholeLines` -/

theorem Board.wholeLines_sorted (b : Board) (w h : Nat) :
    (b.wholeLines w h).Sorted (· < ·) := by
  have hmap : List.Pairwise (· < ·) ((List.range h).map (fun (y : Nat) => (y : Int))) := by
    rw [List.pairwise_map]
    refine (List.pairwise_lt_range h).imp ?_
    intro a b hab
    exact_mod_cast hab
  exact hmap.filter _

theorem Board.mem_wholeLines_iff (b : Board) (w h : Nat) (y : Int) :
    y ∈ b.wholeLines w h ↔
      (0 ≤ y ∧ y < (h : Int) ∧
        ∀ x : Nat, x < w → (b.get ((x : Int), y)).isSome = true) := by
  rw [Board.wholeLines, List.mem_filter]
  constructor
  · rintro ⟨hmem, hfull⟩
    rcases List.mem_map.mp hmem with ⟨n, hn, rfl⟩
    have hn' := List.mem_range.mp hn
    refine ⟨by omega, by exact_mod_cast hn', ?_⟩
    intro x hx
    have hh := List.all_eq_true.mp hfull x (List.mem_range.mpr hx)
    rw [mapHas_eq_isSome_mapGet] at hh
    exact hh
  · rintro ⟨h0, hh, hall⟩
    refine ⟨List.mem_map.mpr ⟨y.toNat, List.mem_range.mpr (by omega), by omega⟩, ?_⟩
    rw [List.all_eq_true]
    intro x hx
    rw [mapHas_eq_isSome_mapGet]
    exact hall x (List.mem_range.mp hx)

/-! ## Lemmas about the state machine -/

theorem tryKicks_valid (boardX boardY : Nat) (board adjusted : Board) (shift : Pos) :
    ∀ (ds : List Pos) (ts : Pos),
      tryKicks boardX boardY board adjusted shift ds = some ts →
      validPlace boardX boardY board adjusted ts = true
  | [], ts, h => by simp [tryKicks] at h
  | d :: ds, ts, h => by
    simp only [tryKicks] at h
    split at h
    · injection h with hh
      rw [← hh]
      assumption
    · exact tryKicks_valid boardX boardY board adjusted shift ds ts h

theorem spawnRotate_valid {boardX boardY : Nat} {board : Board} {fs : Board × Pos}
    (h : validPlace boardX boardY board fs.1 fs.2 = true) :
    validPlace boardX boardY board (spawnRotate boardX boardY board fs).1
      (spawnRotate boardX boardY board fs).2 = true := by
  simp only [spawnRotate]
  split
  next ts hk => exact tryKicks_valid boardX boardY board _ fs.2 _ ts hk
  next => exact h

theorem spawnLoop_valid (boardX boardY : Nat) (board : Board) :
    ∀ (n : Nat) (fs : Board × Pos),
      validPlace boardX boardY board fs.1 fs.2 = true →
      validPlace boardX boardY board (spawnLoop boardX boardY board n fs).1
        (spawnLoop boardX boardY board n fs).2 = true
  | 0, _, h => h
  | n + 1, fs, h =>
    spawnLoop_valid boardX boardY board n (spawnRotate boardX boardY board fs)
      (spawnRotate_valid h)

theorem createNewFalling_ok (board : Board) (m : Metrics) (idx : Fin 7)
    (rots : Fin 4) (now : Int) :
    fallingOK m (createNewFalling board m idx rots now) = true := by
  simp only [createNewFalling]
  split
  · rfl
  next hcond =>
    have hv : validPlace m.boardX m.boardY board (pieceFor idx) (0, 0) = true := by
      simp only [Bool.or_eq_true, Bool.not_eq_true', not_or, Bool.not_eq_false] at hcond
      rw [validPlace, hcond.1, hcond.2]
      rfl
    exact spawnLoop_valid m.boardX m.boardY board rots.val (pieceFor idx, (0, 0)) hv

theorem createNewFalling_not_flashing (board : Board) (m : Metrics) (idx : Fin 7)
    (rots : Fin 4) (now : Int) :
    isFlashing (createNewFalling board m idx rots now) = false := by
  simp only [createNewFalling]
  split
  · rfl
  · rfl

theorem attemptRotation_ok (m : Metrics) (board falling : Board) (shift : Pos)
    (timeSinceFall : Int) (clockwise : Bool)
    (h : fallingOK m (.Falling board falling shift timeSinceFall) = true) :
    fallingOK m (attemptRotation m board falling shift timeSinceFall clockwise)
      = true := by
  simp only [attemptRotation]
  split
  next ts hk => exact tryKicks_valid m.boardX m.boardY board _ shift _ ts hk
  next => exact h

theorem handleKey_ok (m : Metrics) (key : Key) (now : Int) (idx : Fin 7)
    (rots : Fin 4) (s : GameState) (h : fallingOK m s = true) :
    fallingOK m (handleKey m key now idx rots s) = true := by
  cases s with
  | Falling board falling shift timeSinceFall =>
    cases hmv : moveOf key with
    | some mv =>
      simp only [handleKey, hmv]
      split
      next hvp => exact hvp
      next hvp =>
        split
        next hdown =>
          split
          next mb hmb =>
            split
            next hemp => exact createNewFalling_ok mb m idx rots now
            next hemp => rfl
          next hmb => exact h
        next hdown => exact h
    | none =>
      simp only [handleKey, hmv]
      split
      next => exact attemptRotation_ok m board falling shift timeSinceFall false h
      next =>
        split
        next => exact attemptRotation_ok m board falling shift timeSinceFall true h
        next => exact h
  | Flashing board stage lastStageSwitch lines => exact h
  | GameOver board =>
    simp only [handleKey]
    split
    next => exact createNewFalling_ok Board.empty m idx rots now
    next => rfl

theorem gameTick_ok (m : Metrics) (ct dt acc : Int) (idx : Fin 7) (rots : Fin 4)
    (s : GameState) (h : fallingOK m s = true) :
    fallingOK m (gameTick m ct dt acc idx rots s).1 = true := by
  cases s with
  | Falling board falling shift timeSinceFall =>
    simp only [gameTick]
    split
    next htime =>
      split
      next hvp => exact hvp
      next hvp =>
        split
        next mb hmb =>
          split
          next hemp => exact createNewFalling_ok mb m idx rots ct
          next hemp => rfl
        next hmb => rfl
    next htime => exact h
  | Flashing board stage lastStageSwitch lines =>
    simp only [gameTick]
    split
    next hacc =>
      split
      next hstage => rfl
      next hstage => exact createNewFalling_ok (killLines board lines) m idx rots ct
    next hacc => rfl
  | GameOver board => rfl

/-! ## Lemmas about `killLines` (clearing several rows in ascending order) -/

theorem killLines_cons (b : Board) (l : Int) (ls : List Int) :
    killLines b (l :: ls) = killLines (b.killLine l) ls := rfl

theorem killLines_wf : ∀ (ls : List Int) (b : Board), b.wf → (killLines b ls).wf
  | [], _, hb => hb
  | _ :: ls, _, hb => killLines_wf ls _ (Board.killLine_wf hb)

/-- Killing a row strictly below every row of `ls` leaves the cells lying
on rows of `ls` untouched. -/
theorem filter_mem_killFilter (y : Int) (ls : List Int) (hy : ∀ r ∈ ls, y < r) :
    ∀ l : EntryList,
      ((l.filterMap (fun e => (killTransform y e.1).map (fun p => (p, e.2)))).filter
          (fun e => decide (e.1.2 ∈ ls)))
        = l.filter (fun e => decide (e.1.2 ∈ ls))
  | [] => rfl
  | e :: l => by
    have ih := filter_mem_killFilter y ls hy l
    by_cases h1 : e.1.2 > y
    · have ht : killTransform y e.1 = some e.1 := by
        rw [killTransform, if_pos h1]
      have hfm : (e :: l).filterMap (fun e => (killTransform y e.1).map (fun p => (p, e.2)))
          = (e.1, e.2) :: l.filterMap (fun e => (killTransform y e.1).map (fun p => (p, e.2))) := by
        simp [List.filterMap_cons, ht]
      rw [hfm, List.filter_cons, List.filter_cons, ih]
    · by_cases h2 : e.1.2 = y
      · have ht : killTransform y e.1 = none := by
          rw [killTransform, if_neg h1, if_pos h2]
        have hfm : (e :: l).filterMap (fun e => (killTransform y e.1).map (fun p => (p, e.2)))
            = l.filterMap (fun e => (killTransform y e.1).map (fun p => (p, e.2))) := by
          simp [List.filterMap_cons, ht]
        have hnot : ¬ e.1.2 ∈ ls := fun hmem => absurd (hy _ hmem) (by omega)
        rw [hfm, ih, List.filter_cons, if_neg (by simpa using hnot)]
      · have ht : killTransform y e.1 = some (e.1.1, e.1.2 + 1) := by
          rw [killTransform, if_neg h1, if_neg h2]
        have hfm : (e :: l).filterMap (fun e => (killTransform y e.1).map (fun p => (p, e.2)))
            = ((e.1.1, e.1.2 + 1), e.2)
              :: l.filterMap (fun e => (killTransform y e.1).map (fun p => (p, e.2))) := by
          simp [List.filterMap_cons, ht]
        have hm1 : ¬ (e.1.2 + 1) ∈ ls :=
          fun hmem => absurd (hy _ hmem) (by omega)
        have hm2 : ¬ e.1.2 ∈ ls := fun hmem => absurd (hy _ hmem) (by omega)
        rw [hfm, List.filter_cons, List.filter_cons, if_neg (by simpa using hm1),
          if_neg (by simpa using hm2), ih]

/-- Splitting the count of cells on the listed rows at the head row. -/
theorem length_filter_mem_cons (l0 : Int) (ls : List Int) (hnot : l0 ∉ ls) :
    ∀ l : EntryList,
      (l.filter (fun e => decide (e.1.2 ∈ l0 :: ls))).length
        = (l.filter (fun e => decide (e.1.2 = l0))).length
          + (l.filter (fun e => decide (e.1.2 ∈ ls))).length
  | [] => rfl
  | e :: l => by
    have ih := length_filter_mem_cons l0 ls hnot l
    rw [List.filter_cons, List.filter_cons, List.filter_cons]
    by_cases h1 : e.1.2 = l0
    · have hmem : e.1.2 ∈ l0 :: ls := by simp [h1]
      have hnotls : ¬ e.1.2 ∈ ls := fun hc => hnot (h1 ▸ hc)
      rw [if_pos (by simpa using hmem), if_pos (by simpa using h1),
        if_neg (by simpa using hnotls), List.length_cons, List.length_cons]
      omega
    · by_cases h2 : e.1.2 ∈ ls
      · have hmem : e.1.2 ∈ l0 :: ls := by simp [h2]
        rw [if_pos (by simpa using hmem), if_neg (by simpa using h1),
          if_pos (by simpa using h2), List.length_cons, List.length_cons]
        omega
      · have hmem : ¬ e.1.2 ∈ l0 :: ls := by simp [h1, h2]
        rw [if_neg (by simpa using hmem), if_neg (by simpa using h1),
          if_neg (by simpa using h2)]
        omega

/-- Clearing a strictly ascending list of rows removes exactly the cells
lying on those rows. -/
theorem killLines_length :
    ∀ (ls : List Int) (b : Board), b.wf → ls.Sorted (· < ·) →
      (killLines b ls).cells.length
          + (b.cells.filter (fun e => decide (e.1.2 ∈ ls))).length
        = b.cells.length
  | [], b, _, _ => by
    simp [killLines]
  | l :: ls, b, hb, hs => by
    rw [List.sorted_cons] at hs
    have hlt := hs.1
    have ih := killLines_length ls (b.killLine l) (Board.killLine_wf hb) hs.2
    have hfilter : ((b.killLine l).cells.filter (fun e => decide (e.1.2 ∈ ls))).length
        = (b.cells.filter (fun e => decide (e.1.2 ∈ ls))).length := by
      rw [Board.killLine_cells hb, filter_mem_killFilter l ls hlt]
    have hkl := Board.killLine_length hb (y := l)
    have hsplit := length_filter_mem_cons l ls
      (fun hc => absurd (hlt l hc) (by omega)) b.cells
    rw [killLines_cons, hsplit]
    rw [hfilter] at ih
    omega

/-- `attemptRotation` is precisely the spec's single-wall-kick rotation. -/
theorem attemptRotation_eq_spec (m : Metrics) (board falling : Board) (shift : Pos)
    (timeSinceFall : Int) (clockwise : Bool) :
    attemptRotation m board falling shift timeSinceFall clockwise
      = rotationSpec m board falling shift timeSinceFall clockwise := by
  simp only [attemptRotation, rotationSpec, tryKicks]
  have h0 : ((shift.1 + (0 : Int), shift.2 + (0 : Int)) : Pos) = shift := by
    simp
  have h1 : ((shift.1 + (-1 : Int), shift.2 + (0 : Int)) : Pos)
      = (shift.1 - 1, shift.2) := by
    simp [sub_eq_add_neg]
  rw [h0, h1]
  split_ifs with hA hB <;> simp_all

/-! ## The claims -/

/-- C1: every Falling state the state machine produces — by the spawn
procedure `createNewFalling`, by the keydown reducer (accepted left,
right and down moves and accepted rotations), or by a game-loop tick
(gravity) — satisfies the invariant that the falling piece shifted by the
current shift merges cleanly with the locked board (`merged` returns a
board, not the collision outcome) and is contained within the board
bounds; consequently the lock-sequence merge of the piece at its current
shift always succeeds. -/
theorem claim1_falling_invariant (m : Metrics) :
    (∀ (board : Board) (idx : Fin 7) (rots : Fin 4) (now : Int),
        fallingOK m (createNewFalling board m idx rots now) = true) ∧
    (∀ (key : Key) (now : Int) (idx : Fin 7) (rots : Fin 4) (s : GameState),
        fallingOK m s = true → fallingOK m (handleKey m key now idx rots s) = true) ∧
    (∀ (ct dt acc : Int) (idx : Fin 7) (rots : Fin 4) (s : GameState),
        fallingOK m s = true → fallingOK m (gameTick m ct dt acc idx rots s).1 = true) ∧
    (∀ (board falling : Board) (shift : Pos) (timeSinceFall : Int),
        fallingOK m (.Falling board falling shift timeSinceFall) = true →
        ∃ mergedBoard, board.merged (falling.shifted shift) = some mergedBoard) := by
  refine ⟨fun board idx rots now => createNewFalling_ok board m idx rots now,
    fun key now idx rots s h => handleKey_ok m key now idx rots s h,
    fun ct dt acc idx rots s h => gameTick_ok m ct dt acc idx rots s h,
    fun board falling shift timeSinceFall h => ?_⟩
  simp only [fallingOK, validPlace, Bool.and_eq_true] at h
  exact Option.isSome_iff_exists.mp h.1

theorem claim1_falling_invariant_witness :
    fallingOK metrics probeState = true ∧
    fallingOK metrics (handleKey metrics .arrowDown 0 0 0 probeState) = true :=
  ⟨by decide,
   (claim1_falling_invariant metrics).2.1 .arrowDown 0 0 0 probeState (by decide)⟩

/-- C2: for every well-formed board (the class invariant of the backing
JS `Map`) and every row index `y`, `killLine y` removes row `y` entirely,
shifts every cell in a row `< y` down by one (its row index becomes
`index + 1`, color preserved), and leaves every cell in a row `> y`
unchanged.  The lookup characterization states exactly that: row `z > y`
of the result is row `z` of the input, and row `z ≤ y` of the result is
row `z − 1` of the input — so no cell of row `y` survives anywhere. -/
theorem claim2_killLine_shift (b : Board) (y : Int) (hwf : b.wf) :
    ∀ x z : Int, (b.killLine y).get (x, z)
      = if y < z then b.get (x, z) else b.get (x, z - 1) :=
  fun x z => Board.killLine_get hwf x z

theorem claim2_killLine_shift_witness :
    scenarioBoard.wf ∧
      (scenarioBoard.killLine 1).get (0, 2) =
        (if (1 : Int) < 2 then scenarioBoard.get (0, 2)
         else scenarioBoard.get (0, 1)) :=
  ⟨by decide, claim2_killLine_shift scenarioBoard 1 (by decide) 0 2⟩

/-- C3 as stated is false at the spec's own scenario: `killLine` shifts
the rows *above* the cleared row down (row index + 1) and leaves the rows
below unchanged, so `killLine 1` on the Red/Green/Blue column yields
`(0,1) = Red` and `(0,2) = Blue`, not `(0,0) = Red` and `(0,1) = Blue`. -/
theorem claim3_counterexample :
    ¬ ((scenarioBoard.killLine 1).get (0, 0) = some Color.Red ∧
        (scenarioBoard.killLine 1).get (0, 1) = some Color.Blue ∧
        (scenarioBoard.killLine 1).get (0, 2) = none) := by
  decide

/-- C3 amended: starting from the 1-column 3-row board with
`(0,0) = Red`, `(0,1) = Green`, `(0,2) = Blue`, `killLine 1` yields a
board with `(0,1) = Red` (row 0 shifted down into row 1),
`(0,2) = Blue` unchanged, and no cell at row 0. -/
theorem claim3_amended :
    (scenarioBoard.killLine 1).get (0, 1) = some Color.Red ∧
    (scenarioBoard.killLine 1).get (0, 2) = some Color.Blue ∧
    (scenarioBoard.killLine 1).get (0, 0) = none := by
  decide

/-- C4 (amended): when the Flashing state has undergone `STAGE_COUNT`
(18) total stage increments and a stage duration has elapsed, the state
machine leaves Flashing: every recorded line is removed via `killLine`
applied in ascending order and the spawn procedure runs on the result.
The cells that occupied the recorded rows are removed — the occupied-cell
count of the resulting locked board is the original count minus the
number of occupied cells on the recorded rows — but a recorded row index
may be occupied again by cells shifted down from the rows above it (see
the counterexample), so the claim's "no occupied cell remains at any
listed row index" does not hold. -/
theorem claim4_flash_exit (m : Metrics) (board : Board)
    (stage lastStageSwitch : Int) (lines : List Int) (ct dt acc : Int)
    (idx : Fin 7) (rots : Fin 4) (hwf : board.wf)
    (hsort : lines.Sorted (· < ·)) (hstage : 18 ≤ stage + 1)
    (htime : 50 ≤ acc + dt) :
    gameTick m ct dt acc idx rots (.Flashing board stage lastStageSwitch lines)
        = (createNewFalling (killLines board lines) m idx rots ct,
            Int.tmod (acc + dt) 50) ∧
    isFlashing (gameTick m ct dt acc idx rots
        (.Flashing board stage lastStageSwitch lines)).1 = false ∧
    (killLines board lines).cells.length
        = board.cells.length
          - (board.cells.filter (fun e => decide (e.1.2 ∈ lines))).length := by
  have heq : gameTick m ct dt acc idx rots
      (.Flashing board stage lastStageSwitch lines)
      = (createNewFalling (killLines board lines) m idx rots ct,
          Int.tmod (acc + dt) 50) := by
    simp only [gameTick]
    rw [if_pos (by omega), if_neg (by omega)]
  have hlen := killLines_length lines board hwf hsort
  refine ⟨heq, ?_, by omega⟩
  rw [heq]
  exact createNewFalling_not_flashing (killLines board lines) m idx rots ct

theorem claim4_flash_exit_witness :
    flashBoard.wf ∧ ([(1 : Int)].Sorted (· < ·)) ∧
      gameTick smallMetrics 0 50 0 0 0 (.Flashing flashBoard 17 0 [1])
        = (createNewFalling (killLines flashBoard [1]) smallMetrics 0 0 0,
            Int.tmod (0 + 50) 50) :=
  ⟨by decide, by simp,
   (claim4_flash_exit smallMetrics flashBoard 17 0 [1] 0 50 0 0 0
      (by decide) (by simp) (by omega) (by omega)).1⟩

/-- C4's "the previously-recorded `lines` rows are absent" is false: in a
1 × 2 playfield with `(0,0) = Red` and row 1 full, the 18th stage
increment leaves Flashing, yet row 1 — the recorded line — is occupied
again in the resulting locked board by the Red cell shifted down from
row 0. -/
theorem claim4_counterexample :
    (1 : Int) ∈ ([(1 : Int)] : List Int) ∧
    isFlashing (gameTick smallMetrics 0 50 0 0 0
        (.Flashing flashBoard 17 0 [1])).1 = false ∧
    (stateBoard (gameTick smallMetrics 0 50 0 0 0
        (.Flashing flashBoard 17 0 [1])).1).get (0, 1) = some Color.Red := by
  refine ⟨by decide, by decide, by decide⟩

/-- C5: `createNewFalling` returns the GameOver state carrying the same
board if and only if the initially selected piece placed at shift
`(0, 0)` fails to merge with the locked board or is not contained within
the board bounds (`spawnOK` is that very check); otherwise it returns a
Falling state over the same board whose piece places validly — spawn
failure never yields a Falling state whose piece collides, and the spawn
procedure is a total function, so no retry can diverge. -/
theorem claim5_spawn_gameover (board : Board) (m : Metrics) (idx : Fin 7)
    (rots : Fin 4) (now : Int) :
    (createNewFalling board m idx rots now = .GameOver board ↔
        spawnOK board m idx = false) ∧
    (spawnOK board m idx = true →
      ∃ f sh, createNewFalling board m idx rots now = .Falling board f sh now ∧
        validPlace m.boardX m.boardY board f sh = true) := by
  have hcond : (!(board.merged ((pieceFor idx).shifted (0, 0))).isSome
      || !((pieceFor idx).shifted (0, 0)).contained m.boardX m.boardY)
      = !(spawnOK board m idx) := by
    rw [spawnOK, validPlace]
    exact (Bool.not_and _ _).symm
  have hunfold : createNewFalling board m idx rots now
      = if (!(spawnOK board m idx)) = true then .GameOver board
        else .Falling board
          (spawnLoop m.boardX m.boardY board rots.val (pieceFor idx, (0, 0))).1
          (spawnLoop m.boardX m.boardY board rots.val (pieceFor idx, (0, 0))).2 now := by
    simp only [createNewFalling]
    rw [hcond]
  cases hok : spawnOK board m idx with
  | false =>
    rw [hok] at hunfold
    rw [if_pos (by simp)] at hunfold
    refine ⟨iff_of_true hunfold rfl, ?_⟩
    intro hc
    exact absurd hc (by simp)
  | true =>
    rw [hok] at hunfold
    rw [if_neg (by simp)] at hunfold
    refine ⟨iff_of_false (by rw [hunfold]; simp) (by simp), ?_⟩
    intro _
    refine ⟨_, _, hunfold, ?_⟩
    refine spawnLoop_valid m.boardX m.boardY board rots.val (pieceFor idx, (0, 0)) ?_
    rw [spawnOK] at hok
    exact hok

theorem claim5_spawn_gameover_witness :
    spawnOK Board.empty metrics 0 = true ∧
      ∃ f sh, createNewFalling Board.empty metrics 0 0 0 = .Falling Board.empty f sh 0 ∧
        validPlace metrics.boardX metrics.boardY Board.empty f sh = true :=
  ⟨by decide, (claim5_spawn_gameover Board.empty metrics 0 0 0).2 (by decide)⟩

theorem handleKey_arrowUp (m : Metrics) (board falling : Board) (shift : Pos)
    (timeSinceFall now : Int) (idx : Fin 7) (rots : Fin 4) :
    handleKey m .arrowUp now idx rots (.Falling board falling shift timeSinceFall)
      = attemptRotation m board falling shift timeSinceFall false := by
  simp only [handleKey, moveOf]
  rw [if_pos trivial]

theorem handleKey_space (m : Metrics) (board falling : Board) (shift : Pos)
    (timeSinceFall now : Int) (idx : Fin 7) (rots : Fin 4) :
    handleKey m .space now idx rots (.Falling board falling shift timeSinceFall)
      = attemptRotation m board falling shift timeSinceFall true := by
  simp only [handleKey, moveOf]
  rw [if_neg (by decide), if_pos trivial]

/-- C6: a rotation input received in the Falling state (ArrowUp rotates
counter-clockwise, Space clockwise) rotates the local piece,
re-normalizes it via `negativeShift`/`shifted`, tries placement at the
current shift and then at shift − (1, 0) in that order, accepts the first
candidate that both merges cleanly and stays within bounds (updating
`falling` and `shift`), and otherwise returns the prior Falling state
entirely unchanged — board, falling piece, shift, and `timeSinceFall`
all identical. -/
theorem claim6_rotation_kick (m : Metrics) (board falling : Board) (shift : Pos)
    (timeSinceFall : Int) (now : Int) (idx : Fin 7) (rots : Fin 4) :
    handleKey m .arrowUp now idx rots (.Falling board falling shift timeSinceFall)
        = rotationSpec m board falling shift timeSinceFall false ∧
    handleKey m .space now idx rots (.Falling board falling shift timeSinceFall)
        = rotationSpec m board falling shift timeSinceFall true := by
  rw [handleKey_arrowUp, handleKey_space]
  exact ⟨attemptRotation_eq_spec m board falling shift timeSinceFall false,
    attemptRotation_eq_spec m board falling shift timeSinceFall true⟩

/-- C7: collision is symmetric — `A.merged B` returns the collision
outcome iff `B.merged A` does — and when both merges succeed the two
resulting boards map every position to the same color. -/
theorem claim7_merge_symm (A B : Board) (hA : A.wf) (hB : B.wf) :
    ((A.merged B).isNone = true ↔ (B.merged A).isNone = true) ∧
    (∀ C D, A.merged B = some C → B.merged A = some D →
      ∀ p : Pos, C.get p = D.get p) := by
  constructor
  · rw [merged_isNone_iff hB, merged_isNone_iff hA]
    constructor
    · rintro ⟨p, h1, h2⟩
      exact ⟨p, h2, h1⟩
    · rintro ⟨p, h1, h2⟩
      exact ⟨p, h2, h1⟩
  · intro C D hC hD p
    have hCc := merged_eq_some_cells hC
    have hDc := merged_eq_some_cells hD
    have hdisjB := merged_eq_some_disjoint hC
    rw [Board.get, Board.get, hCc, hDc, mapGet_append, mapGet_append]
    by_cases hA' : mapHas A.cells p = true
    · have hB' : mapHas B.cells p = false := by
        rw [Bool.eq_false_iff]
        intro hc
        rcases mapHas_iff.mp hc with ⟨e, he, rfl⟩
        rw [hdisjB e he] at hA'
        exact absurd hA' (by simp)
      rw [if_pos hA', if_neg (by simp [hB'])]
    · rw [if_neg hA']
      by_cases hB' : mapHas B.cells p = true
      · rw [if_pos hB']
      · rw [if_neg hB',
          mapGet_eq_none_of_not_has (Bool.eq_false_iff.mpr hA'),
          mapGet_eq_none_of_not_has (Bool.eq_false_iff.mpr hB')]

theorem claim7_merge_symm_witness :
    scenarioBoard.wf ∧ flashBoard.wf ∧
      ((scenarioBoard.merged flashBoard).isNone = true ↔
        (flashBoard.merged scenarioBoard).isNone = true) :=
  ⟨by decide, by decide,
   (claim7_merge_symm scenarioBoard flashBoard (by decide) (by decide)).1⟩

/-- C8: four clockwise rotations are the identity on every well-formed
piece — the resulting board is equal to the original outright (cells,
positions and colors), which is stronger than equality of occupied-cell
sets after normalizing to a common origin. -/
theorem claim8_rotation_round_trip (P : Board) (hwf : P.wf) :
    P.rotated.rotated.rotated.rotated = P := by
  have h1 := Board.rotated_wf hwf
  have h2 := Board.rotated_wf h1
  have h3 := Board.rotated_wf h2
  apply Board.eq_of_cells
  rw [Board.rotated_cells h3, Board.rotated_cells h2, Board.rotated_cells h1,
    Board.rotated_cells hwf]
  simp [List.map_map, Function.comp_def]

theorem claim8_rotation_round_trip_witness :
    (pieceFor 1).wf ∧ (pieceFor 1).rotated.rotated.rotated.rotated = pieceFor 1 :=
  ⟨by decide, claim8_rotation_round_trip (pieceFor 1) (by decide)⟩

/-- C9: `wholeLines w h` returns, in strictly ascending order, exactly
the row indices `y ∈ [0, h)` whose every column `x ∈ [0, w)` is occupied;
in particular on the 4 × 3 grid with row 1 fully occupied by four
distinct colors and rows 0 and 2 only partially filled it returns
exactly `[1]`. -/
theorem claim9_wholeLines :
    (∀ (b : Board) (w h : Nat),
        (b.wholeLines w h).Sorted (· < ·) ∧
        ∀ y : Int, y ∈ b.wholeLines w h ↔
          (0 ≤ y ∧ y < (h : Int) ∧
            ∀ x : Nat, x < w → (b.get ((x : Int), y)).isSome = true)) ∧
    exGrid.wholeLines 4 3 = [1] :=
  ⟨fun b w h => ⟨Board.wholeLines_sorted b w h,
    fun y => Board.mem_wholeLines_iff b w h y⟩, by decide⟩

/-- C10: on a well-formed board, `killLine y` never collapses two
surviving cells — its entry list is exactly the `filterMap` of the input
entries through the (partially injective) kill transform, each surviving
cell keeping its color, the result is again well-formed, and the
occupied-cell count drops by exactly the number of occupied cells in row
`y`. -/
theorem claim10_killLine_count (b : Board) (y : Int) (hwf : b.wf) :
    (b.killLine y).cells
        = b.cells.filterMap (fun e => (killTransform y e.1).map (fun p => (p, e.2))) ∧
    (b.killLine y).wf ∧
    (b.killLine y).cells.length
        = b.cells.length - (b.cells.filter (fun e => decide (e.1.2 = y))).length := by
  refine ⟨Board.killLine_cells hwf, Board.killLine_wf hwf, ?_⟩
  have hlen := Board.killLine_length hwf (y := y)
  omega

theorem claim10_killLine_count_witness :
    scenarioBoard.wf ∧
      (scenarioBoard.killLine 1).cells.length
        = scenarioBoard.cells.length
          - (scenarioBoard.cells.filter (fun e => decide (e.1.2 = 1))).length :=
  ⟨by decide, (claim10_killLine_count scenarioBoard 1 (by decide)).2.2⟩

end Tetris
